import Mathlib

/-!
# Verification of the hyperliquid-go-sdk action-authentication subsystem

Shallow embedding of the SDK's signing pipeline (`pkg/utils/signing.go`),
asset resolver (`pkg/client/info.go`) and request assembler
(`pkg/client/exchange.go`), together with proofs about the spec's claims.

Machine integers are modelled as `Nat`/`Int` with explicit `% 2^64` where Go
performs two's-complement conversions.  Go functions that can fail (returning
an error) or panic are modelled as `Option`-returning functions.
-/

namespace HL

/-! ## Bytes and big-endian encodings

`binary.BigEndian.PutUint64` writes `byte(v >> 56), …, byte(v)`; a Go `byte`
conversion truncates mod 256.  Go's `uint64(n)` on an `int64` is the
two's-complement reinterpretation, i.e. `n mod 2^64`. -/

def intToUInt64 (n : Int) : Nat := (n % (2 ^ 64 : Int)).toNat

def putUint64BE (v : Nat) : List Nat :=
  [v / 2 ^ 56 % 256, v / 2 ^ 48 % 256, v / 2 ^ 40 % 256, v / 2 ^ 32 % 256,
   v / 2 ^ 24 % 256, v / 2 ^ 16 % 256, v / 2 ^ 8 % 256, v % 256]

def putUint32BE (v : Nat) : List Nat :=
  [v / 2 ^ 24 % 256, v / 2 ^ 16 % 256, v / 2 ^ 8 % 256, v % 256]

def putUint16BE (v : Nat) : List Nat := [v / 2 ^ 8 % 256, v % 256]

/-- Value of a big-endian byte string. -/
def beBytesToNat (bs : List Nat) : Nat := bs.foldl (fun a b => a * 256 + b) 0

/-! ## UTF-8 encoding of strings (Go strings are UTF-8 byte slices). -/

def utf8Char (c : Char) : List Nat :=
  let n := c.toNat
  if n < 0x80 then [n]
  else if n < 0x800 then [0xc0 + n / 64, 0x80 + n % 64]
  else if n < 0x10000 then [0xe0 + n / 4096, 0x80 + n / 64 % 64, 0x80 + n % 64]
  else [0xf0 + n / 262144, 0x80 + n / 4096 % 64, 0x80 + n / 64 % 64, 0x80 + n % 64]

def utf8Bytes (s : String) : List Nat := s.toList.flatMap utf8Char

/-! ## Hex decoding

`encoding/hex.DecodeString` decodes pairs of hex digits and fails on an
invalid digit or an odd-length input; on failure Go also returns the bytes
decoded so far, which `addressToBytes` in the second signing variant keeps
(it ignores the error), while `AddressToBytes` in the first variant
propagates the error. -/

def hexDigit (c : Char) : Option Nat :=
  let n := c.toNat
  if 48 ≤ n ∧ n ≤ 57 then some (n - 48)
  else if 97 ≤ n ∧ n ≤ 102 then some (n - 87)
  else if 65 ≤ n ∧ n ≤ 70 then some (n - 55)
  else none

def hexDecode : List Char → Option (List Nat)
  | [] => some []
  | [_] => none
  | c1 :: c2 :: r =>
    match hexDigit c1, hexDigit c2, hexDecode r with
    | some h, some l, some rest => some ((h * 16 + l) :: rest)
    | _, _, _ => none

/-- The prefix `hex.DecodeString` has produced when it reports an error. -/
def hexDecodePartial : List Char → List Nat
  | [] => []
  | [_] => []
  | c1 :: c2 :: r =>
    match hexDigit c1, hexDigit c2 with
    | some h, some l => (h * 16 + l) :: hexDecodePartial r
    | _, _ => []

def asciiToLower (c : Char) : Char :=
  if 65 ≤ c.toNat ∧ c.toNat ≤ 90 then Char.ofNat (c.toNat + 32) else c

def strip0x (s : List Char) : List Char :=
  match s with
  | '0' :: 'x' :: r => r
  | _ => s

/-- `utils.AddressToBytes` (first signing variant): lowercase, strip `0x`,
hex-decode, propagating the decode error. -/
def AddressToBytes (s : String) : Option (List Nat) :=
  hexDecode (strip0x (s.toList.map asciiToLower))

/-- `utils.addressToBytes` (second signing variant): strip `0x`, hex-decode,
ignoring the decode error (keeping the partially decoded prefix). -/
def addressToBytes2 (s : String) : List Nat :=
  hexDecodePartial (strip0x s.toList)

/-! ## Keccak-256 (legacy Keccak, as in `sha3.NewLegacyKeccak256` and
`crypto.Keccak256`)

The 1600-bit state is 25 lanes of 64 bits, lane `(x, y)` stored at index
`x + 5 * y`; lanes are `Nat`s kept below `2^64`. -/

def w64mask : Nat := 0xFFFFFFFFFFFFFFFF

def not64 (x : Nat) : Nat := Nat.xor x w64mask

def rotl64 (x n : Nat) : Nat :=
  Nat.land (Nat.lor (Nat.shiftLeft x n) (Nat.shiftRight x (64 - n))) w64mask

def lane (A : List Nat) (x y : Nat) : Nat := A.getD (x % 5 + 5 * (y % 5)) 0

def keccakTheta (A : List Nat) : List Nat :=
  let C := fun x => Nat.xor (lane A x 0) (Nat.xor (lane A x 1)
    (Nat.xor (lane A x 2) (Nat.xor (lane A x 3) (lane A x 4))))
  let D := fun x => Nat.xor (C ((x + 4) % 5)) (rotl64 (C ((x + 1) % 5)) 1)
  (List.range 25).map (fun i => Nat.xor (A.getD i 0) (D (i % 5)))

def keccakRotOffsets : List Nat :=
  [0, 1, 62, 28, 27] ++ [36, 44, 6, 55, 20] ++ [3, 10, 43, 25, 39] ++
    [41, 45, 15, 21, 8] ++ [18, 2, 61, 56, 14]

def keccakRhoPi (A : List Nat) : List Nat :=
  (List.range 25).map (fun i =>
    let X := i % 5
    let Y := i / 5
    let x := (X + 3 * Y) % 5
    let y := X
    rotl64 (lane A x y) (keccakRotOffsets.getD (x + 5 * y) 0))

def keccakChi (A : List Nat) : List Nat :=
  (List.range 25).map (fun i =>
    let X := i % 5
    let Y := i / 5
    Nat.xor (lane A X Y) (Nat.land (not64 (lane A (X + 1) Y)) (lane A (X + 2) Y)))

/-- The 24 round constants of Keccak-f[1600], in decimal. -/
def keccakRC : List Nat :=
  [1, 32898, 9223372036854808714] ++
    [9223372039002292224, 32907, 2147483649] ++
    [9223372039002292353, 9223372036854808585, 138] ++
    [136, 2147516425, 2147483658] ++
    [2147516555, 9223372036854775947, 9223372036854808713] ++
    [9223372036854808579, 9223372036854808578, 9223372036854775936] ++
    [32778, 9223372039002259466, 9223372039002292353] ++
    [9223372036854808704, 2147483649, 9223372039002292232]

def keccakIota (rc : Nat) (A : List Nat) : List Nat :=
  match A with
  | [] => []
  | a :: r => Nat.xor a rc :: r

def keccakF (A : List Nat) : List Nat :=
  keccakRC.foldl (fun st rc => keccakIota rc (keccakChi (keccakRhoPi (keccakTheta st)))) A

/-- 8 little-endian bytes interpreted as a 64-bit lane. -/
def bytesToLane (bs : List Nat) : Nat :=
  bs.foldr (fun b acc => b + 256 * acc) 0

def laneToBytes (v : Nat) : List Nat :=
  [v % 256, v / 2 ^ 8 % 256, v / 2 ^ 16 % 256, v / 2 ^ 24 % 256,
   v / 2 ^ 32 % 256, v / 2 ^ 40 % 256, v / 2 ^ 48 % 256, v / 2 ^ 56 % 256]

/-- Split a list into chunks of `n` (n > 0 on all uses; the first argument
is fuel, instantiated with the list length, which suffices since each step
consumes at least one element). -/
def chunksOfAux (n : Nat) : Nat → List Nat → List (List Nat)
  | _, [] => []
  | 0, _ => []
  | fuel + 1, l => l.take n :: chunksOfAux n fuel (l.drop n)

def chunksOf (n : Nat) (l : List Nat) : List (List Nat) := chunksOfAux n l.length l

/-- Absorb one 136-byte block into the state (xor into the first 17 lanes). -/
def keccakAbsorbBlock (st : List Nat) (block : List Nat) : List Nat :=
  let lanes := (chunksOf 8 block).map bytesToLane
  keccakF ((List.range 25).map (fun i => Nat.xor (st.getD i 0) (lanes.getD i 0)))

/-- Legacy Keccak multi-rate padding at rate 136: append `0x01`, zero or more
`0x00`, and a final `0x80` (a single pad byte is `0x81`). -/
def keccakPad (len : Nat) : List Nat :=
  let q := 136 - len % 136
  if q = 1 then [0x81] else 0x01 :: (List.replicate (q - 2) 0 ++ [0x80])

def keccak256 (msg : List Nat) : List Nat :=
  let padded := msg ++ keccakPad msg.length
  let final := (chunksOf 136 padded).foldl keccakAbsorbBlock (List.replicate 25 0)
  (laneToBytes (final.getD 0 0)) ++ (laneToBytes (final.getD 1 0)) ++
  (laneToBytes (final.getD 2 0)) ++ (laneToBytes (final.getD 3 0))

/-! ## Msgpack values and encoding

`MPValue` models the Go values fed to `msgpack` in both `ActionHash`
variants: JSON-like trees of strings, 64-bit integers, booleans, slices and
`map[string]interface{}`.  A Go map is modelled as its entry list in the
order the encoder happens to enumerate it (Go map iteration order is
unspecified); see `EnumOf` below.

The first variant calls `msgpack.Marshal` with default options (map keys in
iteration order, `int64` encoded as fixed-width `0xd3`); the second variant
sets `SetSortMapKeys(true)` and `UseCompactInts(true)` (smallest integer
representation). -/

inductive MPValue where
  | str (s : String)
  | int (n : Int)
  | bool (b : Bool)
  | arr (vs : List MPValue)
  | map (kvs : List (String × MPValue))

def encodeMPStr (s : String) : List Nat :=
  let bs := utf8Bytes s
  let n := bs.length
  if n < 32 then (0xa0 + n) :: bs
  else if n < 256 then 0xd9 :: n :: bs
  else if n < 65536 then 0xda :: putUint16BE n ++ bs
  else 0xdb :: putUint32BE n ++ bs

/-- Msgpack encoding of a Go `int64`: fixed-width `int64` (`0xd3`) by
default, smallest representation when `UseCompactInts` is set. -/
def encodeMPInt (compact : Bool) (n : Int) : List Nat :=
  if compact then
    if 0 ≤ n then
      let v := n.toNat
      if v < 128 then [v]
      else if v < 256 then [0xcc, v]
      else if v < 65536 then 0xcd :: putUint16BE v
      else if v < 4294967296 then 0xce :: putUint32BE v
      else 0xcf :: putUint64BE (intToUInt64 n)
    else
      if -32 ≤ n then [intToUInt64 n % 256]
      else if -128 ≤ n then [0xd0, intToUInt64 n % 256]
      else if -32768 ≤ n then 0xd1 :: putUint16BE (intToUInt64 n % 65536)
      else if -2147483648 ≤ n then 0xd2 :: putUint32BE (intToUInt64 n % 4294967296)
      else 0xd3 :: putUint64BE (intToUInt64 n)
  else 0xd3 :: putUint64BE (intToUInt64 n)

def mpArrHeader (n : Nat) : List Nat :=
  if n < 16 then [0x90 + n]
  else if n < 65536 then 0xdc :: putUint16BE n
  else 0xdd :: putUint32BE n

def mpMapHeader (n : Nat) : List Nat :=
  if n < 16 then [0x80 + n]
  else if n < 65536 then 0xde :: putUint16BE n
  else 0xdf :: putUint32BE n

mutual

def encodeMP (compact : Bool) : MPValue → List Nat
  | .str s => encodeMPStr s
  | .int n => encodeMPInt compact n
  | .bool b => if b then [0xc3] else [0xc2]
  | .arr vs => mpArrHeader vs.length ++ encodeMPList compact vs
  | .map kvs => mpMapHeader kvs.length ++ encodeMPPairs compact kvs

def encodeMPList (compact : Bool) : List MPValue → List Nat
  | [] => []
  | v :: vs => encodeMP compact v ++ encodeMPList compact vs

def encodeMPPairs (compact : Bool) : List (String × MPValue) → List Nat
  | [] => []
  | (k, v) :: r => encodeMPStr k ++ encodeMP compact v ++ encodeMPPairs compact r

end

/-! ### Key sorting (`SetSortMapKeys(true)`)

The Go encoder sorts each map's keys just before encoding it.  We model this
as a canonicalization pass `sortMP` that recursively sorts every map's entry
list by key, followed by the plain encoder: the bytes produced are exactly
those of the sorting encoder. -/

def keyLE (a b : String × MPValue) : Prop := a.1 ≤ b.1

instance : DecidableRel keyLE := fun a b => inferInstanceAs (Decidable (a.1 ≤ b.1))

def sortEntries (l : List (String × MPValue)) : List (String × MPValue) :=
  l.insertionSort keyLE

mutual

def sortMP : MPValue → MPValue
  | .str s => .str s
  | .int n => .int n
  | .bool b => .bool b
  | .arr vs => .arr (sortMPList vs)
  | .map kvs => .map (sortEntries (sortMPPairs kvs))

def sortMPList : List MPValue → List MPValue
  | [] => []
  | v :: vs => sortMP v :: sortMPList vs

def sortMPPairs : List (String × MPValue) → List (String × MPValue)
  | [] => []
  | (k, v) :: r => (k, sortMP v) :: sortMPPairs r

end

/-- Serialization used by the first `ActionHash` variant:
`msgpack.Marshal` with default options. -/
def serialize1 (v : MPValue) : List Nat := encodeMP false v

/-- Serialization used by the second `ActionHash` variant:
sorted map keys and compact integers. -/
def serialize2 (v : MPValue) : List Nat := encodeMP true (sortMP v)

/-! ## The two `ActionHash` variants

`ActionHash1` is `utils.ActionHash` from the first version of `signing.go`
(lines 192-230): serialize, append the nonce as 8 bytes big-endian
(`uint64(nonce)` two's complement, no sign check), append `0x00` or
`0x01 ++ address` for the vault address, append `0x01 ++ 8-byte value` for a
present `expiresAfter` and a single `0x00` for an absent one, and keccak the
result.  Errors (msgpack or hex decode) are propagated as `none`.

`ActionHash2` is `utils.ActionHash` from the second version (lines 798-842):
serialize with sorted keys and compact ints, panic (modelled `none`) on a
negative nonce, append the vault address the same way, and for
`expiresAfter` append `0x00 ++ 8-byte value` when present (after a
negativity check) and nothing at all when absent. -/

def ActionHash1 (action : MPValue) (vaultAddress : Option String) (nonce : Int)
    (expiresAfter : Option Int) : Option (List Nat) :=
  let data := serialize1 action
  let data := data ++ putUint64BE (intToUInt64 nonce)
  let dataV : Option (List Nat) :=
    match vaultAddress with
    | none => some (data ++ [0x00])
    | some va =>
      match AddressToBytes va with
      | none => none
      | some vb => some (data ++ 0x01 :: vb)
  match dataV with
  | none => none
  | some d =>
    match expiresAfter with
    | some e => some (keccak256 (d ++ 0x01 :: putUint64BE (intToUInt64 e)))
    | none => some (keccak256 (d ++ [0x00]))

def ActionHash2 (action : MPValue) (vaultAddress : Option String) (nonce : Int)
    (expiresAfter : Option Int) : Option (List Nat) :=
  let data := serialize2 action
  if nonce < 0 then none
  else
    let data := data ++ putUint64BE (intToUInt64 nonce)
    let data :=
      match vaultAddress with
      | none => data ++ [0x00]
      | some va => data ++ 0x01 :: addressToBytes2 va
    match expiresAfter with
    | some e =>
      if e < 0 then none
      else some (keccak256 (data ++ 0x00 :: putUint64BE (intToUInt64 e)))
    | none => some (keccak256 data)

/-! ## Spec-side assembly of the hash input -/

/-- The nonce as appended by both variants: 8 bytes big-endian of
`uint64(nonce)`. -/
def nonceBytes (nonce : Int) : List Nat := putUint64BE (intToUInt64 nonce)

/-- Vault-address section: a single zero byte when absent, presence byte
`0x01` followed by the decoded address bytes when present (identical in both
variants). -/
def vaultEnc : Option String → List Nat
  | none => [0x00]
  | some a => 0x01 :: addressToBytes2 a

/-- `expiresAfter` section of the first variant: `0x01` + 8-byte value when
present, a single `0x00` when absent. -/
def expiryEnc1 : Option Int → List Nat
  | none => [0x00]
  | some e => 0x01 :: putUint64BE (intToUInt64 e)

/-- `expiresAfter` section of the second variant: `0x00` + 8-byte value when
present, nothing when absent. -/
def expiryEnc2 : Option Int → List Nat
  | none => []
  | some e => 0x00 :: putUint64BE (intToUInt64 e)

/-- Full keccak input assembled by the first variant. -/
def assembled1 (action : MPValue) (vault : Option String) (nonce : Int)
    (exp : Option Int) : List Nat :=
  serialize1 action ++ nonceBytes nonce ++ vaultEnc vault ++ expiryEnc1 exp

/-- Full keccak input assembled by the second variant. -/
def assembled2 (action : MPValue) (vault : Option String) (nonce : Int)
    (exp : Option Int) : List Nat :=
  serialize2 action ++ nonceBytes nonce ++ vaultEnc vault ++ expiryEnc2 exp

/-! ## EIP-712 digest for L1 (phantom-agent) actions

`SignInner` hashes `0x19 0x01 ++ hashStruct(EIP712Domain) ++
hashStruct(Agent, message)`. For the fixed `Agent` schema this is spelled
out below; `copy(connectionId[:], hash)` truncates or zero-pads the action
hash to 32 bytes. The chain id comes from the `EIP712ChainID` constant and
is kept as a parameter. -/

def pad32 (bs : List Nat) : List Nat := (bs ++ List.replicate 32 0).take 32

def uint256BE (v : Nat) : List Nat :=
  (List.range 32).map (fun i => v / 256 ^ (31 - i) % 256)

def agentTypeHash : List Nat :=
  keccak256 (utf8Bytes "Agent(string source,bytes32 connectionId)")

def domainTypeHash : List Nat :=
  keccak256
    (utf8Bytes "EIP712Domain(string name,string version,uint256 chainId,address verifyingContract)")

def phantomSource (isMainnet : Bool) : String := if isMainnet then "a" else "b"

def l1StructHash (mainnet : Bool) (hash : List Nat) : List Nat :=
  keccak256 (agentTypeHash ++ keccak256 (utf8Bytes (phantomSource mainnet)) ++ pad32 hash)

def l1DomainSeparator (chainId : Nat) : List Nat :=
  keccak256 (domainTypeHash ++ keccak256 (utf8Bytes "Exchange") ++
    keccak256 (utf8Bytes "1") ++ uint256BE chainId ++ uint256BE 0)

def l1Digest (chainId : Nat) (mainnet : Bool) (hash : List Nat) : List Nat :=
  keccak256 (0x19 :: 0x01 :: (l1DomainSeparator chainId ++ l1StructHash mainnet hash))

/-- The hash-then-sign pipeline of the second signing variant
(`SignL1Action` = `ActionHash` + `ConstructPhantomAgent` + `L1Payload` +
`SignInner`), with the final deterministic ECDSA step (`crypto.Sign`, which
uses a deterministic RFC-6979-style nonce) abstracted as a function of the
final digest. Returns both the action-hash bytes and the signature. -/
def signL1Pipeline (sign : List Nat → Nat × Nat × Nat) (chainId : Nat) (mainnet : Bool)
    (action : MPValue) (vault : Option String) (nonce : Int) (exp : Option Int) :
    Option (List Nat × (Nat × Nat × Nat)) :=
  (ActionHash2 action vault nonce exp).map (fun h => (h, sign (l1Digest chainId mainnet h)))

/-- The hash-then-sign pipeline of the first signing variant
(`SignL1ActionWithAccount`, the one `exchange.go` invokes): `ActionHash`
over the default (unsorted) `msgpack.Marshal` serialization, then the same
phantom-agent EIP-712 digest and deterministic ECDSA step. -/
def signL1Pipeline1 (sign : List Nat → Nat × Nat × Nat) (chainId : Nat) (mainnet : Bool)
    (action : MPValue) (vault : Option String) (nonce : Int) (exp : Option Int) :
    Option (List Nat × (Nat × Nat × Nat)) :=
  (ActionHash1 action vault nonce exp).map (fun h => (h, sign (l1Digest chainId mainnet h)))

/-! ## Enumerations of a Go map tree

A Go `map[string]interface{}` iterates in unspecified order, so one
structured action value can present its maps' entries to the encoder in any
order on each invocation.  `EnumOf v w` says `w` is an enumeration of the
tree `v`: identical except that every map's entry list may be permuted.
`wfMP` says every map in the tree has distinct keys (true of every Go map). -/

mutual

inductive EnumOf : MPValue → MPValue → Prop where
  | str (s : String) : EnumOf (.str s) (.str s)
  | int (n : Int) : EnumOf (.int n) (.int n)
  | bool (b : Bool) : EnumOf (.bool b) (.bool b)
  | arr {vs ws : List MPValue} : EnumList vs ws → EnumOf (.arr vs) (.arr ws)
  | map {l1 l2 l3 : List (String × MPValue)} :
      EnumPairs l1 l2 → l2.Perm l3 → EnumOf (.map l1) (.map l3)

inductive EnumList : List MPValue → List MPValue → Prop where
  | nil : EnumList [] []
  | cons {v w : MPValue} {vs ws : List MPValue} :
      EnumOf v w → EnumList vs ws → EnumList (v :: vs) (w :: ws)

inductive EnumPairs : List (String × MPValue) → List (String × MPValue) → Prop where
  | nil : EnumPairs [] []
  | cons {k : String} {v w : MPValue} {r s : List (String × MPValue)} :
      EnumOf v w → EnumPairs r s → EnumPairs ((k, v) :: r) ((k, w) :: s)

end

mutual

def wfMP : MPValue → Bool
  | .str _ => true
  | .int _ => true
  | .bool _ => true
  | .arr vs => wfMPList vs
  | .map kvs => decide ((kvs.map Prod.fst).Nodup) && wfMPPairs kvs

def wfMPList : List MPValue → Bool
  | [] => true
  | v :: vs => wfMP v && wfMPList vs

def wfMPPairs : List (String × MPValue) → Bool
  | [] => true
  | (_, v) :: r => wfMP v && wfMPPairs r

end

/-! ## Typed-data payloads (`L1Payload`, `UserSignedPayload`)

Only the structure of the payload matters for the claims; values inside the
message are modelled by `TDValue`. -/

inductive TDValue where
  | str (s : String)
  | bytes (bs : List Nat)
  | num (n : Int)
  | boolV (b : Bool)
deriving DecidableEq

def lookupKV {α : Type} : List (String × α) → String → Option α
  | [], _ => none
  | (k, v) :: r, key => if k = key then some v else lookupKV r key

/-- Go map assignment `m[k] = v` on an entry-list model. -/
def setKV {α : Type} : List (String × α) → String → α → List (String × α)
  | [], key, v => [(key, v)]
  | (k, w) :: r, key, v => if k = key then (k, v) :: r else (k, w) :: setKV r key v

structure TypedDataE where
  types : List (String × List (String × String))
  primaryType : String
  domainName : String
  domainVersion : String
  domainChainId : Option Int
  domainVerifyingContract : String
  message : List (String × TDValue)

def zeroAddress : String := "0x0000000000000000000000000000000000000000"

def domainTypeFields : List (String × String) :=
  [("name", "string"), ("version", "string"), ("chainId", "uint256"),
   ("verifyingContract", "address")]

/-- `ConstructPhantomAgent` (second variant): a two-entry message map. -/
def constructPhantomAgent (hash : List Nat) (isMainnet : Bool) : List (String × TDValue) :=
  [("source", .str (phantomSource isMainnet)), ("connectionId", .bytes hash)]

/-- `L1Payload`; the Go function reads the `EIP712ChainID` constant, kept
here as the parameter `chainId`. -/
def L1Payload (phantomAgent : List (String × TDValue)) (chainId : Int) : TypedDataE :=
  { types := [("Agent", [("source", "string"), ("connectionId", "bytes32")]),
              ("EIP712Domain", domainTypeFields)]
    primaryType := "Agent"
    domainName := "Exchange"
    domainVersion := "1"
    domainChainId := some chainId
    domainVerifyingContract := zeroAddress
    message := phantomAgent }

def SignatureChainID : String := "0x66eee"
def MainnetChainName : String := "Mainnet"
def TestnetChainName : String := "Testnet"

/-- `big.NewInt(0).SetString(s, 0)`: base inferred from the prefix
(`0x`/`0X` hex, otherwise decimal here); returns `none` on a parse failure
(Go returns a nil pointer). Negative signs and the rarer octal/binary
prefixes are not produced by this code base. -/
def parseBigIntString (s : String) : Option Int :=
  let parseWith (digits : List Char) (base : Nat) (digitVal : Char → Option Nat) : Option Int :=
    if digits = [] then none
    else digits.foldl (fun acc c =>
      match acc, digitVal c with
      | some a, some d => some (a * (base : Int) + (d : Int))
      | _, _ => none) (some 0)
  match s.toList with
  | '0' :: 'x' :: r => parseWith r 16 hexDigit
  | '0' :: 'X' :: r => parseWith r 16 hexDigit
  | l => parseWith l 10 (fun c => if 48 ≤ c.toNat ∧ c.toNat ≤ 57 then some (c.toNat - 48) else none)

/-- `UserSignedPayload` (identical in both variants): domain chain id from
the action's `signatureChainId` (falling back to the `SignatureChainID`
constant), message = the action entries whose keys are in the schema,
excluding `signatureChainId`. -/
def userSignedPayload (primaryType : String) (payloadTypes : List (String × String))
    (action : List (String × TDValue)) : TypedDataE :=
  let chainIdStr :=
    match lookupKV action "signatureChainId" with
    | some (.str s) => s
    | _ => SignatureChainID
  { types := [("EIP712Domain", domainTypeFields), (primaryType, payloadTypes)]
    primaryType := primaryType
    domainName := "HyperliquidSignTransaction"
    domainVersion := "1"
    domainChainId := parseBigIntString chainIdStr
    domainVerifyingContract := zeroAddress
    message := action.filter (fun kv =>
      !(kv.1 == "signatureChainId") && (payloadTypes.map Prod.fst).contains kv.1) }

/-- The action map that `SignUserSignedAction` hands to
`UserSignedPayload`: a copy of the caller's action with `signatureChainId`
and `hyperliquidChain` injected. -/
def signUserSignedActionInput (action : List (String × TDValue)) (isMainnet : Bool) :
    List (String × TDValue) :=
  setKV (setKV action "signatureChainId" (.str SignatureChainID))
    "hyperliquidChain" (.str (if isMainnet then MainnetChainName else TestnetChainName))

def signUserSignedPayload (action : List (String × TDValue))
    (payloadTypes : List (String × String)) (primaryType : String) (isMainnet : Bool) :
    TypedDataE :=
  userSignedPayload primaryType payloadTypes (signUserSignedActionInput action isMainnet)

/-! ## Asset resolver (`NewInfo` / `setPerpMeta`)

`coinToAsset` is built by a sequence of Go map assignments: first the spot
universe (`id = spotInfo.Index + 10000`), then for each requested perp venue
(the default `""` followed by the auxiliary venue names) the venue's
universe with `id = position + offset`, where the offset of the i-th
auxiliary venue is `110000 + 10000 * i` and an unknown venue name falls back
to Go's zero value 0. -/

structure SpotInfo where
  name : String
  index : Int
deriving DecidableEq

structure PerpAssetInfo where
  name : String
  szDecimals : Int
deriving DecidableEq

def updateMap (m : String → Option Int) (k : String) (v : Int) : String → Option Int :=
  fun key => if key = k then some v else m key

def applyWrites (ws : List (String × Int)) (m : String → Option Int) : String → Option Int :=
  ws.foldl (fun acc kv => updateMap acc kv.1 kv.2) m

def spotWrites (spotU : List SpotInfo) : List (String × Int) :=
  spotU.map (fun si => (si.name, si.index + 10000))

/-- The writes building `perpDexToOffset`: the i-th auxiliary venue name is
assigned `110000 + 10000 * i` (the map starts as `{"": 0}`). -/
def offsetWritesAux (pos : Nat) : List String → List (String × Int)
  | [] => []
  | nm :: r => (nm, 110000 + 10000 * (pos : Int)) :: offsetWritesAux (pos + 1) r

/-- `perpDexToOffset[name]` with Go's zero-value default for a missing
key. -/
def venueOffset (auxNames : List String) (name : String) : Int :=
  (applyWrites (offsetWritesAux 0 auxNames)
    (fun k => if k = "" then some 0 else none) name).getD 0

/-- `setPerpMeta`: the writes of one venue's universe, `for asset,
assetInfo := range meta.Universe { coinToAsset[name] = asset + offset }`. -/
def venueWritesAux (off : Int) (pos : Nat) : List PerpAssetInfo → List (String × Int)
  | [] => []
  | ai :: r => (ai.name, (pos : Int) + off) :: venueWritesAux off (pos + 1) r

def coinToAssetWrites (spotU : List SpotInfo) (auxNames : List String)
    (universeOf : String → List PerpAssetInfo) : List (String × Int) :=
  spotWrites spotU ++
    ("" :: auxNames).flatMap
      (fun name => venueWritesAux (venueOffset auxNames name) 0 (universeOf name))

def newInfoCoinToAsset (spotU : List SpotInfo) (auxNames : List String)
    (universeOf : String → List PerpAssetInfo) : String → Option Int :=
  applyWrites (coinToAssetWrites spotU auxNames universeOf) (fun _ => none)

/-! ## Request assembler (`Exchange.postAction`) -/

inductive EnvVal where
  | str (s : String)
  | num (n : Int)
  | nullV
  | obj
deriving DecidableEq

/-- `postAction`: the assembled `/exchange` envelope.  The `action` and
`signature` objects are abstracted (`EnvVal.obj`); the claim under study
concerns the `user` field, which Go adds exactly when `accountAddress` is
set and textually differs from the wallet address derived from the signing
key. -/
def postActionPayload (actionType : String) (vaultAddress : Option String)
    (expiresAfter : Option Int) (accountAddress : Option String)
    (walletAddress : String) (nonce : Int) : List (String × EnvVal) :=
  let vault := if actionType ≠ "usdClassTransfer" ∧ actionType ≠ "sendAsset"
    then vaultAddress else none
  let payload : List (String × EnvVal) :=
    [("action", .obj), ("nonce", .num nonce), ("signature", .obj),
     ("vaultAddress", match vault with | some v => .str v | none => .nullV),
     ("expiresAfter", match expiresAfter with | some e => .num e | none => .nullV)]
  match accountAddress with
  | some a => if a ≠ walletAddress then payload ++ [("user", .str a)] else payload
  | none => payload

/-! ## Numeric wire encoder (`FloatToWire`), first variant, string stage

`fmt.Sprintf("%.8f", x)` renders a sign, the integer digits, `.`, and
exactly 8 fraction digits; that rendering is determined by a sign and a
scaled integer `m` (the value in units of `10^-8`), over which we quantify.
The remainder of `FloatToWire` (negative-zero normalization, trailing-zero
and trailing-dot trimming, empty-string guard) is exact string processing,
modelled on `List Char`. -/

def digitChar (d : Nat) : Char :=
  if d = 0 then '0' else if d = 1 then '1' else if d = 2 then '2'
  else if d = 3 then '3' else if d = 4 then '4' else if d = 5 then '5'
  else if d = 6 then '6' else if d = 7 then '7' else if d = 8 then '8'
  else if d = 9 then '9' else '0'

def natDigitsAux : Nat → Nat → List Char → List Char
  | 0, n, acc => digitChar n :: acc
  | fuel + 1, n, acc =>
    if n < 10 then digitChar n :: acc
    else natDigitsAux fuel (n / 10) (digitChar (n % 10) :: acc)

def natDigits (n : Nat) : List Char := natDigitsAux n n []

def pad8 (n : Nat) : List Char :=
  let d := natDigits n
  List.replicate (8 - d.length) '0' ++ d

def formatFixed8 (neg : Bool) (m : Nat) : List Char :=
  (if neg then ['-'] else []) ++ natDigits (m / 100000000) ++ '.' :: pad8 (m % 100000000)

/-- `strings.TrimRight` with a single-character cutset. -/
def trimRightChar (c : Char) (s : List Char) : List Char :=
  (s.reverse.dropWhile (fun x => x = c)).reverse

def negZeroStr : List Char := '-' :: '0' :: '.' :: List.replicate 8 '0'

/-- The trimming tail of `FloatToWire`: `strings.TrimRight(s, "0")`, then
`strings.TrimRight(s, ".")`, then the empty-string guard. -/
def trimStage (s : List Char) : List Char :=
  let t := trimRightChar '.' (trimRightChar '0' s)
  if t = [] then ['0'] else t

def floatToWireStr (neg : Bool) (m : Nat) : List Char :=
  let rounded := formatFixed8 neg m
  let rounded := if rounded = negZeroStr then '0' :: '.' :: List.replicate 8 '0' else rounded
  trimStage rounded

/-! # Theorems -/

set_option maxRecDepth 100000

theorem intToUInt64_of_nonneg (n : Int) (h0 : 0 ≤ n) (h64 : n < 2 ^ 64) :
    intToUInt64 n = n.toNat := by
  unfold intToUInt64
  rw [Int.emod_eq_of_lt h0 (by exact_mod_cast h64)]

theorem beBytesToNat_putUint64BE (v : Nat) (h : v < 2 ^ 64) :
    beBytesToNat (putUint64BE v) = v := by
  simp only [beBytesToNat, putUint64BE, List.foldl]
  norm_num
  omega

/-- C1: For every action, nonce, optional vaultAddress and optional
expiresAfter, `ActionHash` returns the Keccak-256 of: the canonical
serialization of the action, then the nonce as 8 bytes big-endian unsigned,
then a presence byte plus the 20-byte address for a present `vaultAddress`
and a single zero byte for an absent one, then the `expiresAfter` encoding
(a presence/format byte plus 8 bytes big-endian when present).  Proved for
both `ActionHash` variants in the source (which differ only in the
serializer options and the expiry framing). -/
theorem actionHash_keccak_of_assembled (action : MPValue) (vault : Option String)
    (nonce : Int) (exp : Option Int)
    (hn : 0 ≤ nonce) (hn64 : nonce < 2 ^ 64)
    (hv : ∀ a ∈ vault, AddressToBytes a = some (addressToBytes2 a)
      ∧ (addressToBytes2 a).length = 20)
    (he : ∀ e ∈ exp, 0 ≤ e) :
    ActionHash1 action vault nonce exp = some (keccak256 (assembled1 action vault nonce exp))
    ∧ ActionHash2 action vault nonce exp = some (keccak256 (assembled2 action vault nonce exp))
    ∧ (nonceBytes nonce).length = 8
    ∧ beBytesToNat (nonceBytes nonce) = nonce.toNat
    ∧ (vault = none → vaultEnc vault = [0x00])
    ∧ (∀ a ∈ vault, vaultEnc vault = 0x01 :: addressToBytes2 a ∧ (vaultEnc vault).length = 21)
    ∧ (∀ e ∈ exp, expiryEnc1 exp = 0x01 :: putUint64BE (intToUInt64 e)
        ∧ expiryEnc2 exp = 0x00 :: putUint64BE (intToUInt64 e)) := by
  refine ⟨?_, ?_, ?_, ?_, ?_, ?_, ?_⟩
  · unfold ActionHash1 assembled1
    cases vault with
    | none =>
      cases exp <;> simp [vaultEnc, expiryEnc1, nonceBytes]
    | some a =>
      obtain ⟨hdec, _⟩ := hv a rfl
      cases exp <;> simp [hdec, vaultEnc, expiryEnc1, nonceBytes]
  · unfold ActionHash2 assembled2
    rw [if_neg (by omega)]
    cases vault with
    | none =>
      cases exp with
      | none => simp [vaultEnc, expiryEnc2, nonceBytes]
      | some e =>
        have he0 := he e rfl
        simp [vaultEnc, expiryEnc2, nonceBytes, if_neg (by omega : ¬ e < 0)]
    | some a =>
      cases exp with
      | none => simp [vaultEnc, expiryEnc2, nonceBytes]
      | some e =>
        have he0 := he e rfl
        simp [vaultEnc, expiryEnc2, nonceBytes, if_neg (by omega : ¬ e < 0)]
  · simp [nonceBytes, putUint64BE]
  · rw [nonceBytes, intToUInt64_of_nonneg nonce hn hn64]
    exact beBytesToNat_putUint64BE _ (by omega)
  · intro h; subst h; rfl
  · intro a ha
    cases vault with
    | none => cases ha
    | some b => cases ha; exact ⟨rfl, by simp [vaultEnc, (hv a rfl).2]⟩
  · intro e hee
    cases exp with
    | none => cases hee
    | some f => cases hee; exact ⟨rfl, rfl⟩

def witnessAction : MPValue :=
  .map [("type", .str "order"), ("grouping", .str "na")]

def witnessVault : String := "0x1234567890abcdef1234567890abcdef12345678"

theorem actionHash_keccak_of_assembled_witness :
    ((0 : Int) ≤ 7 ∧ (7 : Int) < 2 ^ 64
      ∧ (∀ a ∈ some witnessVault, AddressToBytes a = some (addressToBytes2 a)
          ∧ (addressToBytes2 a).length = 20)
      ∧ (∀ e ∈ some (9 : Int), 0 ≤ e))
    ∧ ActionHash1 witnessAction (some witnessVault) 7 (some 9)
        = some (keccak256 (assembled1 witnessAction (some witnessVault) 7 (some 9))) :=
  ⟨⟨by decide, by decide, by decide, by decide⟩,
    (actionHash_keccak_of_assembled witnessAction (some witnessVault) 7 (some 9)
      (by decide) (by decide) (by decide) (by decide)).1⟩

/-- C3, counterexample: the two `ActionHash` implementations disagree; on
the action `{"type": "ping"}` with nonce 0, no vault address and no expiry
they produce different digests (the first appends a trailing `0x00` for the
absent expiry, the second appends nothing). -/
theorem actionHash_variants_disagree :
    ActionHash1 (.map [("type", .str "ping")]) none 0 none
      ≠ ActionHash2 (.map [("type", .str "ping")]) none 0 none := by
  decide

/-- C3, amended: the two variants agree on the serialization (whenever the
encoder options make no difference), the nonce section and the vault
section, but differ in the expiry framing: with an absent `expiresAfter`
the first variant's keccak input is the second's with one extra `0x00`
byte; with a present one the inputs differ in the flag byte (`0x01` versus
`0x00`) before the 8-byte value.  The digests therefore differ in general
(see the counterexample). -/
theorem actionHash_variants_framing (action : MPValue) (vault : Option String)
    (nonce : Int) (exp : Option Int)
    (hs : serialize1 action = serialize2 action) :
    assembled1 action vault nonce none = assembled2 action vault nonce none ++ [0x00]
    ∧ (∀ e ∈ exp,
        assembled1 action vault nonce (some e)
          = (serialize2 action ++ nonceBytes nonce ++ vaultEnc vault)
            ++ 0x01 :: putUint64BE (intToUInt64 e)
        ∧ assembled2 action vault nonce (some e)
          = (serialize2 action ++ nonceBytes nonce ++ vaultEnc vault)
            ++ 0x00 :: putUint64BE (intToUInt64 e)) := by
  refine ⟨?_, ?_⟩
  · simp [assembled1, assembled2, expiryEnc1, expiryEnc2, hs]
  · intro e _
    constructor
    · simp [assembled1, expiryEnc1, hs]
    · simp [assembled2, expiryEnc2]

theorem actionHash_variants_framing_witness :
    serialize1 (MPValue.map [("type", .str "ping")]) = serialize2 (.map [("type", .str "ping")])
    ∧ assembled1 (.map [("type", .str "ping")]) none 0 none
        = assembled2 (.map [("type", .str "ping")]) none 0 none ++ [0x00] :=
  ⟨by decide,
    (actionHash_variants_framing (.map [("type", .str "ping")]) none 0 none (by decide)).1⟩

/-- C4, counterexample: the first `ActionHash` variant performs no
negativity check: with nonce `-1` and expiresAfter `-1` it still produces a
digest (encoding both as two's-complement `uint64`), contradicting the
claim that `ActionHash` never returns a digest for negative inputs. -/
theorem actionHash1_negative_still_hashes :
    (ActionHash1 (.str "x") none (-1) (some (-1))).isSome = true := by
  decide

/-- C4, amended: the second `ActionHash` variant rejects a negative nonce,
and a negative present `expiresAfter`, before any hashing occurs (a Go
panic, modelled as `none`); the first variant performs no such validation
and always returns a digest when the vault address is absent. -/
theorem actionHash2_rejects_negative (action : MPValue) (vault : Option String)
    (nonce : Int) (exp : Option Int)
    (h : nonce < 0 ∨ ∃ e, exp = some e ∧ e < 0) :
    ActionHash2 action vault nonce exp = none
    ∧ (ActionHash1 action none nonce exp).isSome = true := by
  constructor
  · rcases h with hn | ⟨e, hexp, hneg⟩
    · simp [ActionHash2, if_pos hn]
    · subst hexp
      by_cases hn : nonce < 0
      · simp [ActionHash2, if_pos hn]
      · cases vault <;> simp [ActionHash2, if_neg hn, if_pos hneg]
  · cases exp <;> rfl

theorem actionHash2_rejects_negative_witness :
    ((-1 : Int) < 0 ∨ ∃ e, (none : Option Int) = some e ∧ e < 0)
    ∧ ActionHash2 (.str "x") none (-1) none = none :=
  ⟨Or.inl (by decide),
    (actionHash2_rejects_negative (.str "x") none (-1) none (Or.inl (by decide))).1⟩

/-! ### Canonicality of key sorting -/

def keyLT (a b : String × MPValue) : Prop := a.1 < b.1

instance : IsTotal (String × MPValue) keyLE := ⟨fun a b => le_total a.1 b.1⟩

instance : IsTrans (String × MPValue) keyLE := ⟨fun _ _ _ h1 h2 => le_trans h1 h2⟩

instance : IsAntisymm (String × MPValue) keyLT :=
  ⟨fun _ _ h1 h2 => absurd h2 (lt_asymm h1)⟩

theorem sortEntries_perm (l : List (String × MPValue)) : (sortEntries l).Perm l :=
  List.perm_insertionSort keyLE l

theorem sortEntries_sorted (l : List (String × MPValue)) : (sortEntries l).Sorted keyLE :=
  List.sorted_insertionSort keyLE l

theorem sorted_strict_of_nodup {l : List (String × MPValue)}
    (hs : l.Sorted keyLE) (hnd : (l.map Prod.fst).Nodup) : l.Sorted keyLT := by
  have hne : l.Pairwise (fun a b : String × MPValue => a.1 ≠ b.1) :=
    List.pairwise_map.mp hnd
  exact (hs.and hne).imp (fun h => lt_of_le_of_ne h.1 h.2)

/-- Sorting an entry list with distinct keys is invariant under
permutation: the canonicality property behind `SetSortMapKeys`. -/
theorem sortEntries_eq_of_perm {l1 l2 : List (String × MPValue)}
    (h : l1.Perm l2) (hnd : (l1.map Prod.fst).Nodup) :
    sortEntries l1 = sortEntries l2 := by
  have hp : (sortEntries l1).Perm (sortEntries l2) :=
    ((sortEntries_perm l1).trans h).trans (sortEntries_perm l2).symm
  have hnd1 : ((sortEntries l1).map Prod.fst).Nodup :=
    (List.Perm.nodup_iff ((sortEntries_perm l1).map Prod.fst)).mpr hnd
  have hnd2 : ((sortEntries l2).map Prod.fst).Nodup :=
    (List.Perm.nodup_iff (hp.map Prod.fst)).mp hnd1
  exact List.eq_of_perm_of_sorted hp
    (sorted_strict_of_nodup (sortEntries_sorted l1) hnd1)
    (sorted_strict_of_nodup (sortEntries_sorted l2) hnd2)

theorem sortMPPairs_eq_map (l : List (String × MPValue)) :
    sortMPPairs l = l.map (fun p => (p.1, sortMP p.2)) := by
  induction l with
  | nil => rfl
  | cons p r ih => cases p; simp [sortMPPairs, ih]

theorem sortMPPairs_keys (l : List (String × MPValue)) :
    (sortMPPairs l).map Prod.fst = l.map Prod.fst := by
  rw [sortMPPairs_eq_map]; simp

/-! ### Enumeration invariance of the canonicalized tree -/

mutual

theorem enumOf_sortMP {v w : MPValue} (h : EnumOf v w) (hwf : wfMP v = true) :
    sortMP v = sortMP w := by
  match h with
  | .str s => rfl
  | .int n => rfl
  | .bool b => rfl
  | .arr hl =>
    have := enumList_sortMPList hl (by simpa [wfMP] using hwf)
    simp [sortMP, this]
  | .map h12 hperm =>
    rename_i l1 l2 l3
    have hwf1 : wfMPPairs l1 = true := by
      have := hwf; simp [wfMP, Bool.and_eq_true] at this; exact this.2
    have hnd1 : (l1.map Prod.fst).Nodup := by
      have := hwf; simp [wfMP, Bool.and_eq_true] at this; exact this.1
    obtain ⟨heq, hkeys⟩ := enumPairs_sortMPPairs h12 hwf1
    have hnd2 : ((sortMPPairs l2).map Prod.fst).Nodup := by
      rw [sortMPPairs_keys, ← hkeys]; exact hnd1
    have hpm : (sortMPPairs l2).Perm (sortMPPairs l3) := by
      rw [sortMPPairs_eq_map, sortMPPairs_eq_map]
      exact hperm.map _
    simp only [sortMP]
    rw [heq, sortEntries_eq_of_perm hpm hnd2]

theorem enumList_sortMPList {vs ws : List MPValue} (h : EnumList vs ws)
    (hwf : wfMPList vs = true) : sortMPList vs = sortMPList ws := by
  match h with
  | .nil => rfl
  | .cons h1 hr =>
    have hw := hwf
    simp [wfMPList, Bool.and_eq_true] at hw
    simp [sortMPList, enumOf_sortMP h1 hw.1, enumList_sortMPList hr hw.2]

theorem enumPairs_sortMPPairs {l s : List (String × MPValue)} (h : EnumPairs l s)
    (hwf : wfMPPairs l = true) :
    sortMPPairs l = sortMPPairs s ∧ l.map Prod.fst = s.map Prod.fst := by
  match h with
  | .nil => exact ⟨rfl, rfl⟩
  | .cons h1 hr =>
    have hw := hwf
    simp [wfMPPairs, Bool.and_eq_true] at hw
    obtain ⟨heq, hkeys⟩ := enumPairs_sortMPPairs hr hw.2
    exact ⟨by simp [sortMPPairs, enumOf_sortMP h1 hw.1, heq],
      by simp [hkeys]⟩

end

def detWitnessVal : MPValue := .map [("a", .str "x"), ("b", .str "y")]

def detWitnessEnum2 : MPValue := .map [("b", .str "y"), ("a", .str "x")]

/-- C2, counterexample: the claim fails on the first hash-then-sign
pipeline (`ActionHash` + `SignInner` of the first variant, the one
`exchange.go` invokes through `SignL1ActionWithAccount`): its serializer is
the default `msgpack.Marshal`, which does not sort map keys, so two
invocations on the same two-key action map — modelled by two enumerations
of the map, both exhibited below — produce different action-hash bytes and
different signatures. -/
theorem signL1_order_dependent :
    wfMP detWitnessVal = true
    ∧ EnumOf detWitnessVal detWitnessVal
    ∧ EnumOf detWitnessVal detWitnessEnum2
    ∧ ActionHash1 detWitnessVal none 5 none ≠ ActionHash1 detWitnessEnum2 none 5 none
    ∧ signL1Pipeline1 (fun d => (beBytesToNat d, d.length, 1)) 1337 true
        detWitnessVal none 5 none
      ≠ signL1Pipeline1 (fun d => (beBytesToNat d, d.length, 1)) 1337 true
        detWitnessEnum2 none 5 none := by
  refine ⟨by decide, ?_, ?_, by decide, by decide⟩
  · exact EnumOf.map
      (EnumPairs.cons (EnumOf.str "x") (EnumPairs.cons (EnumOf.str "y") EnumPairs.nil))
      (List.Perm.refl _)
  · exact EnumOf.map
      (EnumPairs.cons (EnumOf.str "x") (EnumPairs.cons (EnumOf.str "y") EnumPairs.nil))
      (List.Perm.swap ("b", MPValue.str "y") ("a", MPValue.str "x") [])

/-- C2, amended: fixing `(action, nonce, vaultAddress, expiresAfter)` and
the key, two invocations of the second (sorted-keys) hash-then-sign
pipeline (`ActionHash` followed by `SignInner` over the phantom-agent typed
data) produce byte-identical action-hash bytes and an identical signature;
the first pipeline is order-dependent (see the counterexample).
Nondeterminism between the two invocations is the Go map iteration order,
modelled by two arbitrary enumerations `w1`, `w2` of the same action `v`;
the ECDSA step is the deterministic (RFC 6979) `crypto.Sign`, modelled as
an arbitrary function `sign` of the final EIP-712 digest. -/
theorem signL1_deterministic (sign : List Nat → Nat × Nat × Nat) (chainId : Nat)
    (mainnet : Bool) (v w1 w2 : MPValue) (vault : Option String) (nonce : Int)
    (exp : Option Int) (hwf : wfMP v = true) (h1 : EnumOf v w1) (h2 : EnumOf v w2) :
    ActionHash2 w1 vault nonce exp = ActionHash2 w2 vault nonce exp
    ∧ signL1Pipeline sign chainId mainnet w1 vault nonce exp
      = signL1Pipeline sign chainId mainnet w2 vault nonce exp := by
  have hs : sortMP w1 = sortMP w2 :=
    (enumOf_sortMP h1 hwf).symm.trans (enumOf_sortMP h2 hwf)
  have hser : serialize2 w1 = serialize2 w2 := by
    unfold serialize2; rw [hs]
  have hh : ActionHash2 w1 vault nonce exp = ActionHash2 w2 vault nonce exp := by
    unfold ActionHash2; rw [hser]
  exact ⟨hh, by unfold signL1Pipeline; rw [hh]⟩

theorem signL1_deterministic_witness :
    wfMP detWitnessVal = true
    ∧ signL1Pipeline (fun d => (beBytesToNat d, d.length, 1)) 1337 true
        detWitnessVal none 5 none
      = signL1Pipeline (fun d => (beBytesToNat d, d.length, 1)) 1337 true
        detWitnessEnum2 none 5 none :=
  ⟨by decide,
    (signL1_deterministic (fun d => (beBytesToNat d, d.length, 1)) 1337 true
      detWitnessVal detWitnessVal detWitnessEnum2 none 5 none (by decide)
      (EnumOf.map
        (EnumPairs.cons (EnumOf.str "x") (EnumPairs.cons (EnumOf.str "y") EnumPairs.nil))
        (List.Perm.refl _))
      (EnumOf.map
        (EnumPairs.cons (EnumOf.str "x") (EnumPairs.cons (EnumOf.str "y") EnumPairs.nil))
        (List.Perm.swap ("b", MPValue.str "y") ("a", MPValue.str "x") []))).2⟩

/-! ### Trimming lemmas for the wire encoder -/

theorem dropWhile_head_false {α : Type} (p : α → Bool) :
    ∀ (l : List α) (a : α) (t : List α), l.dropWhile p = a :: t → p a = false := by
  intro l
  induction l with
  | nil => intro a t h; cases h
  | cons x xs ih =>
    intro a t h
    rw [List.dropWhile_cons] at h
    by_cases hx : p x = true
    · rw [if_pos hx] at h; exact ih a t h
    · rw [if_neg hx] at h
      cases h
      simpa using hx

theorem dropWhile_append_of_nil {α : Type} (p : α → Bool) (l1 l2 : List α)
    (h : l1.dropWhile p = []) : (l1 ++ l2).dropWhile p = l2.dropWhile p := by
  induction l1 with
  | nil => rfl
  | cons a t ih =>
    rw [List.dropWhile_cons] at h
    by_cases ha : p a = true
    · rw [if_pos ha] at h
      rw [List.cons_append, List.dropWhile_cons, if_pos ha]
      exact ih h
    · rw [if_neg ha] at h; cases h

theorem dropWhile_append_of_cons {α : Type} (p : α → Bool) (l1 l2 : List α) (a : α)
    (t : List α) (h : l1.dropWhile p = a :: t) :
    (l1 ++ l2).dropWhile p = a :: (t ++ l2) := by
  induction l1 with
  | nil => cases h
  | cons x xs ih =>
    rw [List.dropWhile_cons] at h
    by_cases hx : p x = true
    · rw [if_pos hx] at h
      rw [List.cons_append, List.dropWhile_cons, if_pos hx]
      exact ih h
    · rw [if_neg hx] at h
      cases h
      rw [List.cons_append, List.dropWhile_cons, if_neg hx]

theorem trimRightChar_getLast (c : Char) (s : List Char) :
    (trimRightChar c s).getLast? ≠ some c := by
  unfold trimRightChar
  rw [List.getLast?_reverse]
  cases hd : s.reverse.dropWhile (fun x => x = c) with
  | nil => simp
  | cons a t =>
    have hfalse := dropWhile_head_false _ _ _ _ hd
    simp only [List.head?_cons, ne_eq, Option.some.injEq]
    intro hac
    subst hac
    simp at hfalse

theorem trimRightChar_of_getLast_ne (c : Char) (s : List Char)
    (h : s.getLast? ≠ some c) : trimRightChar c s = s := by
  unfold trimRightChar
  have hdw : s.reverse.dropWhile (fun x => x = c) = s.reverse := by
    cases hr : s.reverse with
    | nil => rfl
    | cons a t =>
      rw [List.dropWhile_cons, if_neg]
      simp only [decide_eq_true_eq]
      intro hac
      apply h
      have hs : s = t.reverse ++ [a] := by
        rw [← List.reverse_reverse s, hr]; simp
      rw [hs, List.getLast?_concat]
      exact congrArg some hac
  rw [hdw, List.reverse_reverse]

theorem trimRightChar_append_single (c : Char) (pre : List Char) (h : c ∉ pre) :
    trimRightChar c (pre ++ [c]) = pre := by
  unfold trimRightChar
  have hrev : (pre ++ [c]).reverse = c :: pre.reverse := by simp
  rw [hrev, List.dropWhile_cons, if_pos (by simp)]
  have hdw : pre.reverse.dropWhile (fun x => x = c) = pre.reverse := by
    cases hr : pre.reverse with
    | nil => rfl
    | cons a t =>
      rw [List.dropWhile_cons, if_neg]
      simp only [decide_eq_true_eq]
      intro hac
      subst hac
      apply h
      have : a ∈ pre.reverse := by rw [hr]; exact List.mem_cons_self _ _
      simpa using this
  rw [hdw, List.reverse_reverse]

/-- Core property of the trimming stage on a fixed-decimal rendering
`pre ++ "." ++ frac`. -/
theorem trimStage_format (pre frac : List Char)
    (hpre : '.' ∉ pre) (hpren : pre ≠ []) (hfrac : '.' ∉ frac) :
    ('.' ∈ trimStage (pre ++ '.' :: frac) →
      (trimStage (pre ++ '.' :: frac)).getLast? ≠ some '0')
    ∧ (trimStage (pre ++ '.' :: frac)).getLast? ≠ some '.'
    ∧ trimStage (pre ++ '.' :: frac) ≠ [] := by
  have hrev : (pre ++ '.' :: frac).reverse = frac.reverse ++ '.' :: pre.reverse := by
    simp
  cases hd : frac.reverse.dropWhile (fun x => x = '0') with
  | nil =>
    have hu : trimRightChar '0' (pre ++ '.' :: frac) = pre ++ ['.'] := by
      unfold trimRightChar
      rw [hrev, dropWhile_append_of_nil _ _ _ hd, List.dropWhile_cons,
        if_neg (by decide)]
      simp
    have ht : trimRightChar '.' (trimRightChar '0' (pre ++ '.' :: frac)) = pre := by
      rw [hu]; exact trimRightChar_append_single '.' pre hpre
    unfold trimStage
    rw [ht, if_neg hpren]
    refine ⟨fun hmem => absurd hmem hpre, ?_, hpren⟩
    intro hlast
    exact hpre (List.mem_of_mem_getLast? hlast)
  | cons a t0 =>
    have ha0 : ¬ a = '0' := by
      have := dropWhile_head_false _ _ _ _ hd
      simpa using this
    have hamem : a ∈ frac := by
      have hsub : a ∈ frac.reverse.dropWhile (fun x => x = '0') := by
        rw [hd]; exact List.mem_cons_self _ _
      have := (List.dropWhile_sublist (l := frac.reverse)
        (p := fun x => x = '0')).subset hsub
      simpa using this
    have hadot : ¬ a = '.' := fun h => hfrac (h ▸ hamem)
    have hu : trimRightChar '0' (pre ++ '.' :: frac)
        = (t0 ++ '.' :: pre.reverse).reverse ++ [a] := by
      unfold trimRightChar
      rw [hrev, dropWhile_append_of_cons _ _ _ _ _ hd]
      simp
    have hlast : (trimRightChar '0' (pre ++ '.' :: frac)).getLast? = some a := by
      rw [hu]; exact List.getLast?_concat _
    have ht : trimRightChar '.' (trimRightChar '0' (pre ++ '.' :: frac))
        = trimRightChar '0' (pre ++ '.' :: frac) := by
      apply trimRightChar_of_getLast_ne
      rw [hlast]
      simp only [ne_eq, Option.some.injEq]
      exact hadot
    have hne : trimRightChar '0' (pre ++ '.' :: frac) ≠ [] := by
      intro hnil
      rw [hnil] at hlast
      cases hlast
    unfold trimStage
    rw [ht, if_neg hne]
    refine ⟨fun _ => ?_, ?_, hne⟩
    · rw [hlast]
      simp only [ne_eq, Option.some.injEq]
      exact ha0
    · rw [hlast]
      simp only [ne_eq, Option.some.injEq]
      exact hadot

theorem digitChar_ne_dot (d : Nat) : digitChar d ≠ '.' := by
  unfold digitChar
  repeat' split
  all_goals decide

theorem natDigitsAux_mem :
    ∀ (fuel n : Nat) (acc : List Char) (c : Char), c ∈ natDigitsAux fuel n acc →
      c ∈ acc ∨ ∃ d, c = digitChar d := by
  intro fuel
  induction fuel with
  | zero =>
    intro n acc c h
    rcases List.mem_cons.mp h with h | h
    · exact Or.inr ⟨n, h⟩
    · exact Or.inl h
  | succ fuel ih =>
    intro n acc c h
    rw [natDigitsAux] at h
    by_cases hn : n < 10
    · rw [if_pos hn] at h
      rcases List.mem_cons.mp h with h | h
      · exact Or.inr ⟨n, h⟩
      · exact Or.inl h
    · rw [if_neg hn] at h
      rcases ih _ _ _ h with h2 | h2
      · rcases List.mem_cons.mp h2 with h2 | h2
        · exact Or.inr ⟨n % 10, h2⟩
        · exact Or.inl h2
      · exact Or.inr h2

theorem natDigits_no_dot (n : Nat) : '.' ∉ natDigits n := by
  intro h
  rcases natDigitsAux_mem n n [] '.' h with h2 | ⟨d, h2⟩
  · cases h2
  · exact digitChar_ne_dot d h2.symm

theorem natDigitsAux_ne_nil : ∀ (fuel n : Nat) (acc : List Char),
    natDigitsAux fuel n acc ≠ [] := by
  intro fuel
  induction fuel with
  | zero => intro n acc; simp [natDigitsAux]
  | succ fuel ih =>
    intro n acc
    rw [natDigitsAux]
    by_cases hn : n < 10
    · rw [if_pos hn]; simp
    · rw [if_neg hn]; exact ih _ _

theorem pad8_no_dot (n : Nat) : '.' ∉ pad8 n := by
  intro h
  unfold pad8 at h
  rcases List.mem_append.mp h with h2 | h2
  · have := List.eq_of_mem_replicate h2
    cases this
  · exact natDigits_no_dot n h2

theorem formatFixed8_decomp (neg : Bool) (m : Nat) :
    ∃ pre frac, formatFixed8 neg m = pre ++ '.' :: frac
      ∧ '.' ∉ pre ∧ pre ≠ [] ∧ '.' ∉ frac := by
  refine ⟨(if neg then ['-'] else []) ++ natDigits (m / 100000000),
    pad8 (m % 100000000), ?_, ?_, ?_, ?_⟩
  · simp [formatFixed8]
  · intro h
    rcases List.mem_append.mp h with h2 | h2
    · cases neg <;> simp at h2
    · exact natDigits_no_dot _ h2
  · intro h
    rcases List.append_eq_nil.mp h with ⟨_, h2⟩
    exact natDigitsAux_ne_nil _ _ _ h2
  · exact pad8_no_dot _

/-- C6: for every input on which `FloatToWire` succeeds, the returned
string has no unnecessary trailing zeros (no trailing `0` while a decimal
point remains) and no trailing decimal point, negative zero is normalized
to `"0"`, and encoding `100.0` yields exactly `"100"`.  The succeeding
inputs are quantified through their exact `%.8f` rendering, i.e. a sign and
the value in units of `10^-8`. -/
theorem floatToWire_output_format (neg : Bool) (m : Nat) :
    ('.' ∈ floatToWireStr neg m → (floatToWireStr neg m).getLast? ≠ some '0')
    ∧ (floatToWireStr neg m).getLast? ≠ some '.'
    ∧ floatToWireStr neg m ≠ []
    ∧ floatToWireStr true 0 = ['0']
    ∧ floatToWireStr false 10000000000 = ['1', '0', '0'] := by
  have core : ('.' ∈ floatToWireStr neg m → (floatToWireStr neg m).getLast? ≠ some '0')
      ∧ (floatToWireStr neg m).getLast? ≠ some '.'
      ∧ floatToWireStr neg m ≠ [] := by
    simp only [floatToWireStr]
    by_cases hz : formatFixed8 neg m = negZeroStr
    · rw [if_pos hz]
      have := trimStage_format ['0'] (List.replicate 8 '0') (by decide) (by decide)
        (by intro h; have := List.eq_of_mem_replicate h; cases this)
      simpa using this
    · rw [if_neg hz]
      obtain ⟨pre, frac, heq, hpre, hpren, hfrac⟩ := formatFixed8_decomp neg m
      rw [heq]
      exact trimStage_format pre frac hpre hpren hfrac
  exact ⟨core.1, core.2.1, core.2.2, by decide, by decide⟩

theorem floatToWire_output_format_witness :
    '.' ∈ floatToWireStr false 50000000
    ∧ (floatToWireStr false 50000000).getLast? ≠ some '0' :=
  ⟨by decide, (floatToWire_output_format false 50000000).1 (by decide)⟩

/-! ### Asset-resolver lookup lemmas -/

theorem applyWrites_not_mem (ws : List (String × Int)) (m : String → Option Int)
    (k : String) (h : ∀ kv ∈ ws, kv.1 ≠ k) : applyWrites ws m k = m k := by
  induction ws generalizing m with
  | nil => rfl
  | cons w r ih =>
    have hstep : applyWrites (w :: r) m = applyWrites r (updateMap m w.1 w.2) := rfl
    rw [hstep, ih _ (fun kv hkv => h kv (List.mem_cons_of_mem _ hkv))]
    unfold updateMap
    rw [if_neg]
    intro hk
    exact h w (List.mem_cons_self _ _) hk.symm

theorem applyWrites_mem_nodup (ws : List (String × Int)) (m : String → Option Int)
    (k : String) (v : Int) (hnd : (ws.map Prod.fst).Nodup) (hmem : (k, v) ∈ ws) :
    applyWrites ws m k = some v := by
  induction ws generalizing m with
  | nil => cases hmem
  | cons w r ih =>
    have hstep : applyWrites (w :: r) m = applyWrites r (updateMap m w.1 w.2) := rfl
    rw [List.map_cons, List.nodup_cons] at hnd
    rcases List.mem_cons.mp hmem with heq | hmem2
    · subst heq
      rw [hstep, applyWrites_not_mem]
      · unfold updateMap; rw [if_pos rfl]
      · intro kv hkv hk
        apply hnd.1
        have hmm : kv.1 ∈ r.map Prod.fst := List.mem_map_of_mem Prod.fst hkv
        rw [hk] at hmm
        exact hmm
    · exact hstep ▸ ih _ hnd.2 hmem2

theorem offsetWritesAux_keys : ∀ (names : List String) (pos : Nat),
    (offsetWritesAux pos names).map Prod.fst = names := by
  intro names
  induction names with
  | nil => intro pos; rfl
  | cons nm r ih => intro pos; simp [offsetWritesAux, ih]

theorem offsetWritesAux_mem : ∀ (names : List String) (pos i : Nat) (v : String),
    names.get? i = some v →
    (v, 110000 + 10000 * ((pos + i : Nat) : Int)) ∈ offsetWritesAux pos names := by
  intro names
  induction names with
  | nil => intro pos i v h; cases h
  | cons nm r ih =>
    intro pos i v h
    cases i with
    | zero =>
      cases h
      simp [offsetWritesAux]
    | succ i =>
      have hmem := ih (pos + 1) i v h
      have hcast : ((pos + (i + 1) : Nat) : Int) = ((pos + 1 + i : Nat) : Int) := by
        push_cast; ring
      rw [hcast]
      exact List.mem_cons_of_mem _ hmem

theorem venueOffset_default (auxNames : List String) (h : "" ∉ auxNames) :
    venueOffset auxNames "" = 0 := by
  unfold venueOffset
  rw [applyWrites_not_mem]
  · simp
  · intro kv hkv hk
    apply h
    have : kv.1 ∈ (offsetWritesAux 0 auxNames).map Prod.fst :=
      List.mem_map_of_mem Prod.fst hkv
    rw [offsetWritesAux_keys] at this
    exact hk ▸ this

theorem venueOffset_aux (auxNames : List String) (i : Nat) (v : String)
    (hnd : auxNames.Nodup) (hget : auxNames.get? i = some v) :
    venueOffset auxNames v = 110000 + 10000 * (i : Int) := by
  unfold venueOffset
  rw [applyWrites_mem_nodup _ _ _ (110000 + 10000 * (i : Int))]
  · rfl
  · rw [offsetWritesAux_keys]; exact hnd
  · have := offsetWritesAux_mem auxNames 0 i v hget
    simpa using this

theorem venueWritesAux_mem (off : Int) :
    ∀ (univ : List PerpAssetInfo) (pos p : Nat) (ai : PerpAssetInfo),
      univ.get? p = some ai →
      (ai.name, ((pos + p : Nat) : Int) + off) ∈ venueWritesAux off pos univ := by
  intro univ
  induction univ with
  | nil => intro pos p ai h; cases h
  | cons a r ih =>
    intro pos p ai h
    cases p with
    | zero =>
      cases h
      simp [venueWritesAux]
    | succ p =>
      have hmem := ih (pos + 1) p ai h
      have hcast : ((pos + (p + 1) : Nat) : Int) = ((pos + 1 + p : Nat) : Int) := by
        push_cast; ring
      rw [hcast]
      exact List.mem_cons_of_mem _ hmem

/-- C7: after resolver-table construction, a spot instrument name resolves
to `its index + 10000` (within `[10000, 110000)` for an in-range index), a
default-venue derivative resolves to its position in the universe list
(below 10000 when the universe fits the 10000-id block), and an instrument
of the i-th auxiliary venue beyond the default resolves to its position
offset by `110000 + 10000 * i`.  The hypotheses state the well-formedness
Go maps and real metadata guarantee: globally distinct instrument names and
distinct, non-empty auxiliary venue names. -/
theorem resolver_id_table (spotU : List SpotInfo) (auxNames : List String)
    (universeOf : String → List PerpAssetInfo)
    (hnd : ((coinToAssetWrites spotU auxNames universeOf).map Prod.fst).Nodup)
    (hauxnd : auxNames.Nodup) (hne : "" ∉ auxNames) :
    (∀ si ∈ spotU,
      newInfoCoinToAsset spotU auxNames universeOf si.name = some (si.index + 10000)
      ∧ (0 ≤ si.index ∧ si.index < 100000 →
          10000 ≤ si.index + 10000 ∧ si.index + 10000 < 110000))
    ∧ (∀ (p : Nat) (ai : PerpAssetInfo), (universeOf "").get? p = some ai →
        newInfoCoinToAsset spotU auxNames universeOf ai.name = some ((p : Int))
        ∧ ((universeOf "").length ≤ 10000 → (p : Int) < 10000))
    ∧ (∀ (i : Nat) (v : String) (p : Nat) (ai : PerpAssetInfo),
        auxNames.get? i = some v → (universeOf v).get? p = some ai →
        newInfoCoinToAsset spotU auxNames universeOf ai.name
          = some (110000 + 10000 * (i : Int) + (p : Int))) := by
  refine ⟨?_, ?_, ?_⟩
  · intro si hsi
    constructor
    · apply applyWrites_mem_nodup _ _ _ _ hnd
      apply List.mem_append_left
      exact List.mem_map_of_mem _ hsi
    · intro ⟨h1, h2⟩
      omega
  · intro p ai hget
    constructor
    · have hmem : (ai.name, (p : Int))
          ∈ coinToAssetWrites spotU auxNames universeOf := by
        apply List.mem_append_right
        apply List.mem_flatMap.mpr
        refine ⟨"", List.mem_cons_self _ _, ?_⟩
        rw [venueOffset_default auxNames hne]
        have := venueWritesAux_mem 0 (universeOf "") 0 p ai hget
        simpa using this
      exact applyWrites_mem_nodup _ _ _ _ hnd hmem
    · intro hlen
      have hp : p < (universeOf "").length := (List.get?_eq_some.mp hget).1
      omega
  · intro i v p ai hgv hget
    have hvmem : v ∈ ("" :: auxNames) :=
      List.mem_cons_of_mem _ (List.get?_mem hgv)
    have hmem : (ai.name, 110000 + 10000 * (i : Int) + (p : Int))
        ∈ coinToAssetWrites spotU auxNames universeOf := by
      apply List.mem_append_right
      apply List.mem_flatMap.mpr
      refine ⟨v, hvmem, ?_⟩
      rw [venueOffset_aux auxNames i v hauxnd hgv]
      have := venueWritesAux_mem (110000 + 10000 * (i : Int)) (universeOf v) 0 p ai hget
      have hval : ((0 + p : Nat) : Int) + (110000 + 10000 * (i : Int))
          = 110000 + 10000 * (i : Int) + (p : Int) := by push_cast; ring
      rw [hval] at this
      exact this
    exact applyWrites_mem_nodup _ _ _ _ hnd hmem

def rWitnessSpot : List SpotInfo := [⟨"PURR/USDC", 0⟩]

def rWitnessUniverse (nm : String) : List PerpAssetInfo :=
  if nm = "" then [⟨"BTC", 5⟩] else if nm = "dex1" then [⟨"AAA", 2⟩] else []

theorem resolver_id_table_witness :
    ((coinToAssetWrites rWitnessSpot ["dex1"] rWitnessUniverse).map Prod.fst).Nodup
    ∧ newInfoCoinToAsset rWitnessSpot ["dex1"] rWitnessUniverse "AAA"
        = some (110000 + 10000 * ((0 : Nat) : Int) + ((0 : Nat) : Int)) :=
  ⟨by decide,
    ((resolver_id_table rWitnessSpot ["dex1"] rWitnessUniverse (by decide) (by decide)
      (by decide)).2.2 0 "dex1" 0 ⟨"AAA", 2⟩ (by decide) (by decide))⟩

/-- C8: for every action hash and mainnet flag, the exchange-native
typed-data payload has exactly the two message fields `source` and
`connectionId`, with `source` = "a" on mainnet and "b" otherwise and
`connectionId` = the hash, under the fixed domain `name="Exchange"`,
`version="1"`, `verifyingContract` = the zero address; the payload is a
function of the hash and flag alone, so no field of the action appears in
it. -/
theorem l1Payload_phantom_structure (hash : List Nat) (mainnet : Bool) (chainId : Int) :
    (L1Payload (constructPhantomAgent hash mainnet) chainId).message.map Prod.fst
      = ["source", "connectionId"]
    ∧ lookupKV (L1Payload (constructPhantomAgent hash mainnet) chainId).message "source"
      = some (.str (if mainnet then "a" else "b"))
    ∧ lookupKV (L1Payload (constructPhantomAgent hash mainnet) chainId).message "connectionId"
      = some (.bytes hash)
    ∧ (L1Payload (constructPhantomAgent hash mainnet) chainId).domainName = "Exchange"
    ∧ (L1Payload (constructPhantomAgent hash mainnet) chainId).domainVersion = "1"
    ∧ (L1Payload (constructPhantomAgent hash mainnet) chainId).domainVerifyingContract
      = zeroAddress
    ∧ (L1Payload (constructPhantomAgent hash mainnet) chainId).primaryType = "Agent" := by
  cases mainnet <;>
    simp [L1Payload, constructPhantomAgent, phantomSource, lookupKV]

/-! ### User-signed payload lemmas -/

theorem lookupKV_filter {α : Type} (p : String → Bool) (l : List (String × α)) (k : String) :
    lookupKV (l.filter (fun kv => p kv.1)) k = if p k then lookupKV l k else none := by
  induction l with
  | nil => cases hp : p k <;> simp [lookupKV, hp]
  | cons a r ih =>
    obtain ⟨ak, av⟩ := a
    rw [List.filter_cons]
    by_cases hk : ak = k
    · subst hk
      cases hp : p ak with
      | true => simp [lookupKV, hp]
      | false => simp [lookupKV, hp, ih]
    · cases hp : p ak with
      | true => simp [lookupKV, hp, hk, ih]
      | false => simp [lookupKV, hp, hk, ih]

theorem lookupKV_setKV {α : Type} (l : List (String × α)) (k : String) (v : α) :
    lookupKV (setKV l k v) k = some v := by
  induction l with
  | nil => simp [setKV, lookupKV]
  | cons a r ih =>
    cases a with
    | mk ak aw =>
      by_cases hk : ak = k
      · subst hk; simp [setKV, lookupKV]
      · simp [setKV, lookupKV, hk, ih]

/-- C9: the typed-data message built by `UserSignedPayload` contains
exactly the action entries whose keys appear in the schema,
`signatureChainId` is never copied into the message body (it determines the
domain chain id instead), the domain is `HyperliquidSignTransaction`
version "1", and `SignUserSignedAction` injects
`hyperliquidChain = "Mainnet"`/`"Testnet"` before building the payload. -/
theorem userSignedPayload_spec (primaryType : String)
    (payloadTypes : List (String × String)) (action : List (String × TDValue))
    (mainnet : Bool) :
    (∀ k, lookupKV (userSignedPayload primaryType payloadTypes action).message k
      = if k ≠ "signatureChainId" ∧ k ∈ payloadTypes.map Prod.fst
        then lookupKV action k else none)
    ∧ (∀ v, ("signatureChainId", v)
        ∉ (userSignedPayload primaryType payloadTypes action).message)
    ∧ (userSignedPayload primaryType payloadTypes action).domainName
      = "HyperliquidSignTransaction"
    ∧ (userSignedPayload primaryType payloadTypes action).domainVersion = "1"
    ∧ (∀ s, lookupKV action "signatureChainId" = some (.str s) →
        (userSignedPayload primaryType payloadTypes action).domainChainId
          = parseBigIntString s)
    ∧ lookupKV (signUserSignedActionInput action mainnet) "hyperliquidChain"
      = some (.str (if mainnet then MainnetChainName else TestnetChainName)) := by
  refine ⟨?_, ?_, rfl, rfl, ?_, ?_⟩
  · intro k
    have h := lookupKV_filter
      (fun s => !(s == "signatureChainId") && (payloadTypes.map Prod.fst).contains s)
      action k
    rw [show (userSignedPayload primaryType payloadTypes action).message
        = action.filter (fun kv =>
            !(kv.1 == "signatureChainId") && (payloadTypes.map Prod.fst).contains kv.1)
      from rfl]
    rw [h]
    by_cases hc : k ≠ "signatureChainId" ∧ k ∈ payloadTypes.map Prod.fst
    · rw [if_pos hc, if_pos]
      simp [hc.1, hc.2]
    · rw [if_neg hc, if_neg]
      intro hb
      apply hc
      simp only [Bool.and_eq_true, Bool.not_eq_true', beq_eq_false_iff_ne] at hb
      exact ⟨hb.1, by simpa using hb.2⟩
  · intro v hmem
    have := (List.mem_filter.mp hmem).2
    simp at this
  · intro s hs
    rw [show (userSignedPayload primaryType payloadTypes action).domainChainId
        = parseBigIntString
            (match lookupKV action "signatureChainId" with
              | some (.str s) => s
              | _ => SignatureChainID) from rfl]
    rw [hs]
  · exact lookupKV_setKV _ _ _

theorem userSignedPayload_spec_witness :
    lookupKV [("signatureChainId", TDValue.str "0x1")] "signatureChainId"
      = some (TDValue.str "0x1")
    ∧ (userSignedPayload "T" [] [("signatureChainId", TDValue.str "0x1")]).domainChainId
      = parseBigIntString "0x1" :=
  ⟨by decide,
    (userSignedPayload_spec "T" [] [("signatureChainId", TDValue.str "0x1")] true).2.2.2.2.1
      "0x1" (by decide)⟩

/-- C10, counterexample: `postAction` does not treat an empty
`accountAddress` as absent: with `accountAddress = some ""` and a non-empty
wallet address, an empty-string `user` field is sent, contradicting the
claim that no empty-string `user` field is ever sent. -/
theorem postAction_empty_user_sent :
    lookupKV (postActionPayload "order" none none (some "")
      "0x1234567890abcdef1234567890abcdef12345678" 1) "user" = some (.str "") := by
  decide

/-- C10, amended: the assembled envelope contains a `user` field equal to
`actingAccount` exactly when `actingAccount` is set and differs textually
from the address derived from the signing key — including when it is the
empty string, which is not treated as absent. -/
theorem postAction_user_field (actionType : String) (vaultAddress : Option String)
    (expiresAfter : Option Int) (accountAddress : Option String)
    (walletAddress : String) (nonce : Int) :
    lookupKV (postActionPayload actionType vaultAddress expiresAfter accountAddress
      walletAddress nonce) "user"
      = match accountAddress with
        | some a => if a ≠ walletAddress then some (.str a) else none
        | none => none := by
  unfold postActionPayload
  cases accountAddress with
  | none => simp [lookupKV]
  | some a => by_cases h : a ≠ walletAddress <;> simp [lookupKV, h]

end HL
